import Mathlib

/-!
Shallow embedding of `src/yamlify_db.py` (MemEA legacy-config to YAML
converter).  Strings are modelled as `List Char`; Python's machine floats
are modelled as exact rationals (`ℚ`): for the decimal literals accepted by
the converter's float branch, `float(t)` is the IEEE rounding of exactly
the rational computed here, and no claim depends on the rounding itself.
File layout: definitions first (translated from the source, except the
serializer which is marked as modelled from the spec), then theorems.
-/

/-- Python whitespace characters recognised by `str.strip()` (ASCII range;
the inputs of this dialect are ASCII). -/
def pySpace (c : Char) : Bool :=
  (c == ' ') || (c == '\t') || (c == '\n') || (c == '\r') || (c == '\x0b') || (c == '\x0c')

/-- `str.lstrip()` (whitespace only). -/
def ltrimL (l : List Char) : List Char := l.dropWhile pySpace

/-- `str.rstrip()` (whitespace only). -/
def rtrimL (l : List Char) : List Char := (l.reverse.dropWhile pySpace).reverse

/-- `str.strip()`. -/
def pyStrip (l : List Char) : List Char := rtrimL (ltrimL l)

/-- `str.rstrip(",")`: removes every trailing comma. -/
def rstripC (l : List Char) : List Char := (l.reverse.dropWhile (fun c => c == ',')).reverse

/-- `[0-9]` (re `\d`, ASCII). -/
def isDigit (c : Char) : Bool := ('0' ≤ c) && (c ≤ '9')

/-- re `\w` = `[A-Za-z0-9_]` (ASCII; inputs are ASCII). -/
def isWordChar (c : Char) : Bool :=
  (('a' ≤ c) && (c ≤ 'z')) || (('A' ≤ c) && (c ≤ 'Z')) || isDigit c || (c == '_')

/-- `[A-Za-z_]`. -/
def isAlphaUnd (c : Char) : Bool :=
  (('a' ≤ c) && (c ≤ 'z')) || (('A' ≤ c) && (c ≤ 'Z')) || (c == '_')

/-- `re.search(r"[eE]", s)` as a boolean. -/
def hasExp (l : List Char) : Bool := l.any (fun c => (c == 'e') || (c == 'E'))

/-- `"," in rest`. -/
def hasComma (l : List Char) : Bool := l.any (fun c => c == ',')

/-- A scalar value produced by `to_number`: Python int, float (exact
rational, see the header comment) or the fallback string. -/
inductive Scalar where
  | int : ℤ → Scalar
  | float : ℚ → Scalar
  | str : List Char → Scalar
deriving DecidableEq, Repr

/-- Drops one leading `+` or `-` sign, as the regex `[+-]?` does. -/
def dropSign : List Char → List Char
  | '+' :: ds => ds
  | '-' :: ds => ds
  | ds => ds

/-- `re.fullmatch(r"[+-]?\d+", t)` as a boolean: an optional sign followed
by one or more digits. -/
def matchIntRe (t : List Char) : Bool :=
  match t with
  | '+' :: ds => !ds.isEmpty && ds.all isDigit
  | '-' :: ds => !ds.isEmpty && ds.all isDigit
  | ds => !ds.isEmpty && ds.all isDigit

/-- Body of the float regex, `\d+\.\d*|\d*\.\d+|\d+`: digits with at most
one decimal point and at least one digit.  The match is decided by where
the leading digit run stops. -/
def floatBody (u : List Char) : Bool :=
  match u.dropWhile isDigit with
  | [] => !u.isEmpty
  | '.' :: b => (!(u.takeWhile isDigit).isEmpty || !b.isEmpty) && b.all isDigit
  | _ => false

/-- `re.fullmatch(r"[+-]?(?:\d+\.\d*|\d*\.\d+|\d+)", t)` as a boolean. -/
def matchFloatRe (t : List Char) : Bool := floatBody (dropSign t)

/-- Value of a digit run, most significant first. -/
def digitsToNat (l : List Char) : Nat :=
  l.foldl (fun a c => 10 * a + (c.toNat - '0'.toNat)) 0

/-- Python `int(t)` on a string of shape `[+-]?\d+`. -/
def pyInt (t : List Char) : Int :=
  if t.headD ' ' = '-' then -(digitsToNat (dropSign t) : Int) else (digitsToNat (dropSign t) : Int)

/-- Python `int(t)`, with `none` for the `ValueError` case.  Python's
`int` succeeds exactly on optional sign + nonempty digit run (up to
whitespace/underscore extensions irrelevant to the strings reaching it
here), so the guard is that shape. -/
def pyIntOpt (t : List Char) : Option Int :=
  let ds := dropSign t
  if ds.isEmpty || !ds.all isDigit then none else some (pyInt t)

/-- Python `float(t)` on a string of shape `[+-]?(\d+\.\d*|\d*\.\d+|\d+)`,
as the exact rational value of the decimal literal. -/
def pyFloat (t : List Char) : ℚ :=
  let u := dropSign t
  let a := u.takeWhile isDigit
  let q : ℚ :=
    match u.dropWhile isDigit with
    | '.' :: b => (digitsToNat a : ℚ) + (digitsToNat b : ℚ) / ((10 : ℚ) ^ b.length)
    | _ => (digitsToNat a : ℚ)
  if t.headD ' ' = '-' then -q else q

/-- Python `float(t)`, with `none` for the `ValueError` case; on the
decimal shapes reaching this branch `float` succeeds exactly when the
regex body matches (Python's `float` also accepts exponents / inf / nan,
which never reach this branch). -/
def pyFloatOpt (t : List Char) : Option ℚ :=
  if floatBody (dropSign t) then some (pyFloat t) else none

/-- `to_number` from `src/yamlify_db.py`:
strip whitespace and trailing commas, keep anything with an exponent
marker as a string, then try integer, then float, else fall back to the
string itself.  The `none` arms are the source's `except ValueError`
fallbacks. -/
def to_number (s : List Char) : Scalar :=
  let t := rstripC (pyStrip s)
  if hasExp t then .str t
  else if matchIntRe t then
    match pyIntOpt t with
    | some n => .int n
    | none => .str t
  else if matchFloatRe t then
    match pyFloatOpt t with
    | some q => .float q
    | none => .str t
  else .str t

/-- Split a character list at commas (every comma is a separator; `n`
commas yield `n+1` parts). -/
def splitC : List Char → List (List Char)
  | [] => [[]]
  | c :: cs =>
    let r := splitC cs
    if c = ',' then [] :: r
    else (c :: r.headD []) :: r.tail

/-- `parse_value_list` from `src/yamlify_db.py`.
`re.split(r"\s*,\s*", x)` is modelled as split-at-commas followed by a
strip of each part: on the stripped, comma-rstripped `x` every run of
whitespace adjacent to a part boundary is adjacent to a comma or to an
end of the string, so the two have the same parts up to outer whitespace
of each part, which `to_number` strips and the emptiness filter treats
identically. -/
def parse_value_list (rest : List Char) : List Scalar :=
  ((((splitC (rstripC (pyStrip rest)))).map pyStrip).filter (fun p => !p.isEmpty)).map to_number

/-- `parse_value_list` as the spec's §4.1 words describe it, for the
refinement claim about `coerce_list`: split the raw text on commas, trim
each part, drop the parts that are empty after trimming, coerce each
surviving part, keep the original order. -/
def coerce_list_spec (raw : List Char) : List Scalar :=
  (((splitC raw).map pyStrip).filter (fun p => !p.isEmpty)).map to_number

/-- A value stored in a block: a scalar, a `FlowList` of scalars, or the
nested dims mapping attached at flush time (whose values are always
`FlowList`s). -/
inductive Val where
  | sc : Scalar → Val
  | flow : List Scalar → Val
  | dict : List (List Char × List Scalar) → Val
deriving DecidableEq, Repr

/-- A block: insertion-ordered mapping key → value. -/
abbrev Blk := List (List Char × Val)

/-- The dims sub-mapping under construction. -/
abbrev Dms := List (List Char × List Scalar)

/-- The output document: section → name → block, insertion-ordered. -/
abbrev Out := List (List Char × List (List Char × Blk))

/-- The open block: section, name, properties, dims. -/
abbrev Cur := List Char × List Char × Blk × Dms

/-- Parser state: committed output plus the open block (`none` before the
first header, mirroring `section = name = block = None`). -/
abbrev PState := Out × Option Cur

/-- `LIST_KEYS_IN_DIMS = {"size", "enc"}`. -/
def LIST_KEYS_IN_DIMS : List (List Char) := ["size".toList, "enc".toList]

/-- `TOPLEVEL_LIST_KEYS = {"voltage"}`. -/
def TOPLEVEL_LIST_KEYS : List (List Char) := ["voltage".toList]

/-- Python-dict assignment `d[k] = v`: replace in place if the key is
present (insertion order kept), else append at the end. -/
def upsert {β : Type} (k : List Char) (v : β) :
    List (List Char × β) → List (List Char × β)
  | [] => [(k, v)]
  | (k1, v1) :: r => if k1 = k then (k, v) :: r else (k1, v1) :: upsert k v r

/-- Association-list lookup (Python `d[k]` / `k in d`). -/
def lookupKey {β : Type} (k : List Char) : List (List Char × β) → Option β
  | [] => none
  | (k1, v1) :: r => if k1 = k then some v1 else lookupKey k r

/-- `out.setdefault(section, {})[name] = blk`. -/
def upsertSec (sec nm : List Char) (b : Blk) : Out → Out
  | [] => [(sec, [(nm, b)])]
  | (s1, inner) :: r =>
    if s1 = sec then (s1, upsert nm b inner) :: r else (s1, inner) :: upsertSec sec nm b r

/-- Lookup of a committed block: `out[section][name]`. -/
def lookup2 (o : Out) (sec nm : List Char) : Option Blk :=
  (lookupKey sec o).bind (lookupKey nm)

/-- The block actually committed at flush time: `if dims: block["dims"] =
dims` before the block is stored. -/
def commitBlk (b : Blk) (d : Dms) : Blk :=
  if d = [] then b else upsert ("dims".toList) (.dict d) b

/-- The flush at a new header / end of input: `if section and name and
block is not None: ...; out.setdefault(section, {})[name] = block`
(the regex groups are nonempty, so the truthiness test is exactly
"a block is open"). -/
def flush (o : Out) : Option Cur → Out
  | none => o
  | some (sec, nm, b, d) => upsertSec sec nm (commitBlk b d) o

/-- `re.match(r"^(\w+):\s*(\S+)$", line)`: a nonempty word run, a colon,
optional whitespace, then a single nonempty whitespace-free token ending
the line.  Greedy matching needs no backtracking here: a shorter word run
would be followed by a word character, not `:`. -/
def headerMatch (line : List Char) : Option (List Char × List Char) :=
  match line.takeWhile isWordChar, line.dropWhile isWordChar with
  | [], _ => none
  | w, ':' :: r2 =>
    let nm := r2.dropWhile pySpace
    if nm.isEmpty then none
    else if nm.any pySpace then none
    else some (w, nm)
  | _, _ => none

/-- `re.match(r"^([A-Za-z_]\w*)\s+(.*)$", line)`: key = letter or
underscore then word characters, at least one whitespace, and group 2 is
the rest of the line after the whitespace run (`\s+` is greedy and `.*`
takes the remainder). -/
def propMatch (line : List Char) : Option (List Char × List Char) :=
  match line with
  | [] => none
  | c :: cs =>
    if isAlphaUnd c then
      let r1 := cs.dropWhile isWordChar
      match r1 with
      | [] => none
      | c2 :: _ =>
        if pySpace c2 then some (c :: cs.takeWhile isWordChar, r1.dropWhile pySpace)
        else none
    else none

/-- The property-line part of the loop body of `parse_old_format`,
acting on the open block's `(block, dims)`: skip blanks and comments,
try the property regex, and route by key set, by the comma test, or to a
scalar. -/
def propStep (bd : Blk × Dms) (raw : List Char) : Blk × Dms :=
  let line := pyStrip raw
  if line.isEmpty then bd
  else if line.headD ' ' = '#' then bd
  else
    match propMatch line with
    | none => bd
    | some (key, g2) =>
      let rest := pyStrip g2
      if key ∈ LIST_KEYS_IN_DIMS then (bd.1, upsert key (parse_value_list rest) bd.2)
      else if key ∈ TOPLEVEL_LIST_KEYS then (upsert key (.flow (parse_value_list rest)) bd.1, bd.2)
      else if hasComma rest then (upsert key (.flow (parse_value_list rest)) bd.1, bd.2)
      else (upsert key (.sc (to_number rest)) bd.1, bd.2)

/-- One iteration of the `for raw in f` loop of `parse_old_format`:
strip, skip blanks/comments, a header flushes the open block and opens a
fresh one, any other line is handled by `propStep` when a block is open
and dropped otherwise. -/
def stepLine (st : PState) (raw : List Char) : PState :=
  let line := pyStrip raw
  if line.isEmpty then st
  else if line.headD ' ' = '#' then st
  else
    match headerMatch line with
    | some (sec, nm) => (flush st.1 st.2, some (sec, nm, ([] : Blk), ([] : Dms)))
    | none =>
      match st.2 with
      | none => st
      | some (sec, nm, b, d) => (st.1, some (sec, nm, propStep (b, d) raw))

/-- `parse_old_format` from `src/yamlify_db.py`, over the list of input
lines (file I/O is out of scope): fold the loop body, then flush the last
block. -/
def parse_old_format (ls : List (List Char)) : Out :=
  let st := ls.foldl stepLine (([], none) : PState)
  flush st.1 st.2

/-- The comma-split-and-strip core of `parse_value_list`, shared by the
equivalence lemmas: strip every part, drop parts that became empty. -/
def stripParts (u : List Char) : List (List Char) :=
  ((splitC u).map pyStrip).filter (fun p => !p.isEmpty)

/-- The claim pattern `^-?\d+$`: optional minus then one or more digits. -/
def reIntToken (t : List Char) : Bool :=
  match t with
  | '-' :: ds => !ds.isEmpty && ds.all isDigit
  | ds => !ds.isEmpty && ds.all isDigit

/-- Tail of the claim pattern `\d*\.\d+`: a digit run, a point, then one
or more digits to the end. -/
def floatTail (u : List Char) : Bool :=
  match u.dropWhile isDigit with
  | '.' :: b => !b.isEmpty && b.all isDigit
  | _ => false

/-- The claim pattern `^-?\d*\.\d+$`: optional minus, digits, a point,
then one or more digits. -/
def reFloatToken (t : List Char) : Bool :=
  match t with
  | '-' :: u => floatTail u
  | u => floatTail u

/-- Decimal digit as a character. -/
def digitChar (n : Nat) : Char := Char.ofNat (48 + n)

/-- Decimal digits of a natural number, fuelled (the fuel `n + 1` always
suffices). -/
def natCharsF : Nat → Nat → List Char
  | 0, _ => []
  | f + 1, n => if n < 10 then [digitChar n] else natCharsF f (n / 10) ++ [digitChar (n % 10)]

/-- Decimal digits of a natural number, most significant first. -/
def natChars (n : Nat) : List Char := natCharsF (n + 1) n

/-- Modelled from the spec: the YAML scalar emission performed by the
external PyYAML `SafeDumper` (not part of this repository) — an integer
as its decimal numeral, a float as an exact `num/den` numeral (the
claims about the serializer do not depend on float formatting), a string
as its own text. -/
def renderScalar : Scalar → List Char
  | .int n => (if n < 0 then ['-'] else []) ++ natChars n.natAbs
  | .float q => (if q < 0 then ['-'] else []) ++ natChars q.num.natAbs ++ '/' :: natChars q.den
  | .str s => s

/-- Comma-space joining of rendered list elements. -/
def joinComma : List (List Char) → List Char
  | [] => []
  | [x] => x
  | x :: y :: r => x ++ ',' :: ' ' :: joinComma (y :: r)

/-- Modelled from the spec: the compact flow rendering `[a, b, c]` that
the registered `FlowList` representer requests from PyYAML
(`flow_style=True`), on a single line. -/
def renderFlow (l : List Scalar) : List Char :=
  '[' :: joinComma (l.map renderScalar) ++ [']']

/-- Modelled from the spec: the lines PyYAML's `safe_dump` emits for one
block entry at the given indentation — a scalar or flow value on one
`key: value` line, the nested dims mapping as a `key:` line followed by
one flow line per dims entry. -/
def serializeEntry (ind : List Char) : List Char × Val → List (List Char)
  | (k, .sc v) => [ind ++ k ++ ':' :: ' ' :: renderScalar v]
  | (k, .flow l) => [ind ++ k ++ ':' :: ' ' :: renderFlow l]
  | (k, .dict d) =>
    (ind ++ k ++ [':']) ::
      d.map (fun q => ind ++ ' ' :: ' ' :: (q.1 ++ ':' :: ' ' :: renderFlow q.2))

/-- Modelled from the spec: `yaml.safe_dump(data, f, sort_keys=False)` as
a list of output lines — sections, names and properties in insertion
order, two-space indentation per nesting level. -/
def serialize (o : Out) : List (List Char) :=
  (o.map (fun se =>
    (se.1 ++ [':']) ::
      (se.2.map (fun nb =>
        (' ' :: ' ' :: (nb.1 ++ [':'])) ::
          (nb.2.map (serializeEntry [' ', ' ', ' ', ' '])).flatten)).flatten)).flatten

/-- A committed block entry as claims C4 and C9 constrain it: its key is
neither dims key, and a dict value can only sit under the key `dims`, be
nonempty, and hold dims keys only. -/
def goodBlkEntry (p : List Char × Val) : Prop :=
  p.1 ≠ "size".toList ∧ p.1 ≠ "enc".toList ∧
    ∀ d, p.2 = Val.dict d →
      p.1 = "dims".toList ∧ d ≠ [] ∧ ∀ q ∈ d, q.1 = "size".toList ∨ q.1 = "enc".toList

/-- An entry of the still-open block: no dims key, and no dict value at
all (the dims mapping is only attached at flush time). -/
def liveBlkEntry (p : List Char × Val) : Prop :=
  p.1 ≠ "size".toList ∧ p.1 ≠ "enc".toList ∧ ∀ d, p.2 ≠ Val.dict d

/-- The dims mapping under construction holds only dims keys. -/
def DmsInv (d : Dms) : Prop := ∀ q ∈ d, q.1 = "size".toList ∨ q.1 = "enc".toList

/-- Every committed block satisfies `goodBlkEntry` pointwise. -/
def OutInv (o : Out) : Prop := ∀ se ∈ o, ∀ nb ∈ se.2, ∀ p ∈ nb.2, goodBlkEntry p

/-- Invariant of the open block. -/
def CurInv : Option Cur → Prop
  | none => True
  | some (_, _, b, d) => (∀ p ∈ b, liveBlkEntry p) ∧ DmsInv d

/-- Full machine invariant. -/
def StInv (st : PState) : Prop := OutInv st.1 ∧ CurInv st.2

/-! ### Helper lemmas: trimming and splitting -/

lemma dropWhile_all_false {p : Char → Bool} {l : List Char}
    (h : ∀ c ∈ l, p c = false) : l.dropWhile p = l := by
  cases l with
  | nil => rfl
  | cons c cs => simp [List.dropWhile_cons, h c (List.mem_cons_self c cs)]

lemma dropWhile_all_true {p : Char → Bool} {l : List Char}
    (h : ∀ c ∈ l, p c = true) : l.dropWhile p = [] :=
  List.dropWhile_eq_nil_iff.mpr h

lemma dropWhile_idem {p : Char → Bool} (l : List Char) :
    (l.dropWhile p).dropWhile p = l.dropWhile p := by
  induction l with
  | nil => rfl
  | cons c cs ih =>
    by_cases h : p c
    · simp [List.dropWhile_cons, h, ih]
    · simp [List.dropWhile_cons, h]

lemma head_false_of_dropWhile_eq_self {p : Char → Bool} {c : Char} {cs : List Char}
    (h : (c :: cs).dropWhile p = c :: cs) : p c = false := by
  by_contra hb
  rw [Bool.not_eq_false] at hb
  rw [List.dropWhile_cons, if_pos hb] at h
  have hlen := congrArg List.length h
  have hle := (List.dropWhile_sublist (l := cs) p).length_le
  simp at hlen
  omega

lemma mem_dropWhile_of_not {p : Char → Bool} {c : Char} {l : List Char}
    (hc : p c = false) (h : c ∈ l) : c ∈ l.dropWhile p := by
  rw [← List.takeWhile_append_dropWhile p l] at h
  rcases List.mem_append.mp h with h1 | h2
  · exact absurd (List.mem_takeWhile_imp h1) (by simp [hc])
  · exact h2

lemma ltrimL_idem (l : List Char) : ltrimL (ltrimL l) = ltrimL l := dropWhile_idem l

lemma rtrimL_idem (l : List Char) : rtrimL (rtrimL l) = rtrimL l := by
  simp [rtrimL, dropWhile_idem]

lemma rtrimL_cons (c : Char) (cs : List Char) :
    rtrimL (c :: cs) = [] ∨ ∃ t, rtrimL (c :: cs) = c :: t := by
  unfold rtrimL
  rw [List.reverse_cons, List.dropWhile_append]
  by_cases h : (cs.reverse.dropWhile pySpace).isEmpty
  · rw [if_pos h]
    by_cases hc : pySpace c
    · left; simp [List.dropWhile_cons, hc]
    · right; exact ⟨[], by simp [List.dropWhile_cons, hc]⟩
  · rw [if_neg h]
    right
    exact ⟨(cs.reverse.dropWhile pySpace).reverse, by simp⟩

lemma ltrim_rtrim_of_ltrimmed {y : List Char} (h : ltrimL y = y) :
    ltrimL (rtrimL y) = rtrimL y := by
  cases y with
  | nil => rfl
  | cons c cs =>
    have hc : pySpace c = false := head_false_of_dropWhile_eq_self h
    rcases rtrimL_cons c cs with h0 | ⟨t, ht⟩
    · rw [h0]; rfl
    · rw [ht]
      show (c :: t).dropWhile pySpace = c :: t
      simp [List.dropWhile_cons, hc]

lemma pyStrip_idem (l : List Char) : pyStrip (pyStrip l) = pyStrip l := by
  show rtrimL (ltrimL (rtrimL (ltrimL l))) = rtrimL (ltrimL l)
  rw [ltrim_rtrim_of_ltrimmed (ltrimL_idem l), rtrimL_idem]

lemma mem_pyStrip {c : Char} {l : List Char} (hc : pySpace c = false) (h : c ∈ l) :
    c ∈ pyStrip l := by
  have h1 : c ∈ ltrimL l := mem_dropWhile_of_not hc h
  have h2 : c ∈ (ltrimL l).reverse := List.mem_reverse.mpr h1
  exact List.mem_reverse.mpr (mem_dropWhile_of_not hc h2)

lemma mem_rstripC {c : Char} {l : List Char} (hc : (c == ',') = false) (h : c ∈ l) :
    c ∈ rstripC l :=
  List.mem_reverse.mpr (mem_dropWhile_of_not hc (List.mem_reverse.mpr h))

lemma pyStrip_eq_self {l : List Char} (h : ∀ c ∈ l, pySpace c = false) : pyStrip l = l := by
  show rtrimL (ltrimL l) = l
  unfold ltrimL rtrimL
  rw [dropWhile_all_false h, dropWhile_all_false (fun c hc => h c (List.mem_reverse.mp hc))]
  exact List.reverse_reverse l

lemma rstripC_eq_self {l : List Char} (h : ∀ c ∈ l, (c == ',') = false) : rstripC l = l := by
  unfold rstripC
  rw [dropWhile_all_false (fun c hc => h c (List.mem_reverse.mp hc))]
  exact List.reverse_reverse l

lemma ltrimL_decomp (l : List Char) :
    ∃ ws, l = ws ++ ltrimL l ∧ ∀ c ∈ ws, pySpace c = true := by
  exact ⟨l.takeWhile pySpace, (List.takeWhile_append_dropWhile pySpace l).symm,
    fun c hc => List.mem_takeWhile_imp hc⟩

lemma rtrimL_decomp (l : List Char) :
    ∃ ws, l = rtrimL l ++ ws ∧ ∀ c ∈ ws, pySpace c = true := by
  refine ⟨(l.reverse.takeWhile pySpace).reverse, ?_, ?_⟩
  · conv_lhs => rw [← List.reverse_reverse l,
      ← List.takeWhile_append_dropWhile pySpace l.reverse]
    rw [List.reverse_append]
    rfl
  · intro c hc
    exact List.mem_takeWhile_imp (List.mem_reverse.mp hc)

lemma rstripC_decomp (l : List Char) :
    ∃ m, l = rstripC l ++ List.replicate m ',' := by
  refine ⟨(l.reverse.takeWhile (fun c => c == ',')).length, ?_⟩
  conv_lhs => rw [← List.reverse_reverse l,
    ← List.takeWhile_append_dropWhile (fun c => c == ',') l.reverse]
  rw [List.reverse_append]
  show rstripC l ++ _ = rstripC l ++ _
  congr 1
  have h : ∀ c ∈ (l.reverse.takeWhile (fun c => c == ',')).reverse, c = ',' := by
    intro c hc
    have := List.mem_takeWhile_imp (List.mem_reverse.mp hc)
    simpa using this
  rw [List.eq_replicate_of_mem h]
  simp

lemma pySpace_ne_comma {c : Char} (h : pySpace c = true) : (c == ',') = false := by
  have hc : ((((c = ' ' ∨ c = '\t') ∨ c = '\n') ∨ c = '\x0d') ∨ c = '\x0b') ∨ c = '\x0c' := by
    simpa [pySpace] using h
  rcases hc with ((((h | h) | h) | h) | h) | h <;> subst h <;> rfl

lemma splitC_ne_nil (l : List Char) : splitC l ≠ [] := by
  cases l with
  | nil => simp [splitC]
  | cons c cs => by_cases h : c = ',' <;> simp [splitC, h]

lemma splitC_cons_head_tail (l : List Char) :
    splitC l = (splitC l).headD [] :: (splitC l).tail := by
  rcases hs : splitC l with _ | ⟨p, ps⟩
  · exact absurd hs (splitC_ne_nil l)
  · rfl

lemma splitC_no_comma (l : List Char) (h : ∀ c ∈ l, (c == ',') = false) :
    splitC l = [l] := by
  induction l with
  | nil => rfl
  | cons c cs ih =>
    have hc : ¬ (c = ',') := by
      have := h c (List.mem_cons_self c cs); simpa using this
    simp [splitC, hc, ih (fun x hx => h x (List.mem_cons_of_mem c hx))]

lemma splitC_append_comma (u : List Char) : splitC (u ++ [',']) = splitC u ++ [[]] := by
  induction u with
  | nil => rfl
  | cons c cs ih =>
    by_cases h : c = ','
    · subst h
      simp [splitC, ih]
    · rcases hs : splitC cs with _ | ⟨p, ps⟩
      · exact absurd hs (splitC_ne_nil cs)
      · simp [splitC, h, ih, hs]

lemma splitC_snoc_form (u : List Char) :
    ∃ F L, splitC u = F ++ [L] ∧
      ∀ v, (∀ c ∈ v, (c == ',') = false) → splitC (u ++ v) = F ++ [L ++ v] := by
  induction u with
  | nil =>
    refine ⟨[], [], rfl, fun v hv => ?_⟩
    rw [List.nil_append, splitC_no_comma v hv]
    rfl
  | cons c cs ih =>
    obtain ⟨F, L, h1, h2⟩ := ih
    by_cases h : c = ','
    · subst h
      refine ⟨[] :: F, L, ?_, fun v hv => ?_⟩
      · simp [splitC, h1]
      · simp [splitC, h2 v hv]
    · cases F with
      | nil =>
        refine ⟨[], c :: L, ?_, fun v hv => ?_⟩
        · simp [splitC, h, h1]
        · simp [splitC, h, h2 v hv]
      | cons F0 Fs =>
        refine ⟨(c :: F0) :: Fs, L, ?_, fun v hv => ?_⟩
        · simp [splitC, h, h1]
        · simp [splitC, h, h2 v hv]

lemma splitC_ws_append (ws t : List Char) (hws : ∀ c ∈ ws, pySpace c = true) :
    splitC (ws ++ t) = (ws ++ (splitC t).headD []) :: (splitC t).tail := by
  induction ws with
  | nil => simpa using splitC_cons_head_tail t
  | cons c ws2 ih =>
    have hc : ¬ (c = ',') := by
      have := pySpace_ne_comma (hws c (List.mem_cons_self c ws2))
      simpa using this
    simp [splitC, hc, ih (fun x hx => hws x (List.mem_cons_of_mem c hx))]

lemma pyStrip_ws_left (ws x : List Char) (hws : ∀ c ∈ ws, pySpace c = true) :
    pyStrip (ws ++ x) = pyStrip x := by
  show rtrimL (ltrimL (ws ++ x)) = rtrimL (ltrimL x)
  unfold ltrimL
  rw [List.dropWhile_append_of_pos (by simpa using hws)]

lemma rtrimL_ws_right (y ws : List Char) (hws : ∀ c ∈ ws, pySpace c = true) :
    rtrimL (y ++ ws) = rtrimL y := by
  unfold rtrimL
  rw [List.reverse_append,
    List.dropWhile_append_of_pos (by simp; intro c hc; exact hws c hc)]

lemma pyStrip_ws_right (x ws : List Char) (hws : ∀ c ∈ ws, pySpace c = true) :
    pyStrip (x ++ ws) = pyStrip x := by
  show rtrimL (ltrimL (x ++ ws)) = rtrimL (ltrimL x)
  unfold ltrimL
  rw [List.dropWhile_append]
  by_cases h : (x.dropWhile pySpace).isEmpty
  · rw [if_pos h, dropWhile_all_true hws]
    have hx : x.dropWhile pySpace = [] := List.isEmpty_iff.mp h
    rw [hx]
  · rw [if_neg h]
    exact rtrimL_ws_right _ ws hws

lemma stripParts_one_comma (w : List Char) :
    stripParts (w ++ [',']) = stripParts w := by
  unfold stripParts
  rw [splitC_append_comma]
  simp [List.filter_append, pyStrip, ltrimL, rtrimL]

lemma stripParts_commas (v : List Char) (m : Nat) :
    stripParts (v ++ List.replicate m ',') = stripParts v := by
  induction m with
  | zero => simp
  | succ k ih =>
    rw [List.replicate_succ' k ',', ← List.append_assoc, stripParts_one_comma]
    exact ih

lemma stripParts_rstripC (u : List Char) : stripParts (rstripC u) = stripParts u := by
  obtain ⟨m, hm⟩ := rstripC_decomp u
  conv_rhs => rw [hm]
  exact (stripParts_commas (rstripC u) m).symm

lemma stripParts_ws_left (ws t : List Char) (hws : ∀ c ∈ ws, pySpace c = true) :
    stripParts (ws ++ t) = stripParts t := by
  unfold stripParts
  rw [splitC_ws_append ws t hws]
  conv_rhs => rw [splitC_cons_head_tail t]
  simp only [List.map_cons, List.filter_cons]
  rw [pyStrip_ws_left ws _ hws]

lemma stripParts_ws_right (t ws : List Char) (hws : ∀ c ∈ ws, pySpace c = true) :
    stripParts (t ++ ws) = stripParts t := by
  obtain ⟨F, L, h1, h2⟩ := splitC_snoc_form t
  unfold stripParts
  rw [h2 ws (fun c hc => pySpace_ne_comma (hws c hc)), h1]
  simp only [List.map_append, List.map_cons, List.map_nil]
  rw [pyStrip_ws_right L ws hws]

lemma stripParts_pyStrip (u : List Char) : stripParts (pyStrip u) = stripParts u := by
  obtain ⟨ws1, h1, hws1⟩ := ltrimL_decomp u
  obtain ⟨ws2, h2, hws2⟩ := rtrimL_decomp (ltrimL u)
  conv_rhs => rw [h1, stripParts_ws_left ws1 (ltrimL u) hws1, h2]
  rw [stripParts_ws_right _ ws2 hws2]
  rfl

/-! ### Character-class facts -/

lemma ne_of_pred_ne {p : Char → Bool} {c d : Char} (h1 : p c = true) (h2 : p d = false) :
    c ≠ d := fun e => by subst e; rw [h1] at h2; cases h2

lemma pySpace_cases {c : Char} (h : pySpace c = true) :
    ((((c = ' ' ∨ c = '\t') ∨ c = '\n') ∨ c = '\x0d') ∨ c = '\x0b') ∨ c = '\x0c' := by
  simpa [pySpace] using h

lemma isDigit_not_space {c : Char} (h : isDigit c = true) : pySpace c = false := by
  by_contra hb
  rw [Bool.not_eq_false] at hb
  rcases pySpace_cases hb with ((((h1 | h1) | h1) | h1) | h1) | h1 <;> subst h1 <;>
    exact absurd h (by decide)

lemma hasExp_cases {l : List Char} (h : hasExp l = true) :
    ∃ c ∈ l, c = 'e' ∨ c = 'E' := by
  simpa [hasExp] using h

lemma hasExp_of_mem {l : List Char} {c : Char} (hm : c ∈ l) (hc : c = 'e' ∨ c = 'E') :
    hasExp l = true := by
  simp [hasExp]
  exact ⟨c, hm, by rcases hc with h | h <;> simp [h]⟩

lemma hasExp_false_of {l : List Char} (h : ∀ c ∈ l, c ≠ 'e' ∧ c ≠ 'E') :
    hasExp l = false := by
  simp [hasExp]
  intro c hc
  exact ⟨(h c hc).1, (h c hc).2⟩

lemma hasExp_norm {s : List Char} (h : hasExp s = true) :
    hasExp (rstripC (pyStrip s)) = true := by
  obtain ⟨c, hm, hce⟩ := hasExp_cases h
  have h1 : pySpace c = false := by rcases hce with h1 | h1 <;> subst h1 <;> decide
  have h2 : (c == ',') = false := by rcases hce with h1 | h1 <;> subst h1 <;> decide
  exact hasExp_of_mem (mem_rstripC h2 (mem_pyStrip h1 hm)) hce

lemma dropSign_of_ne {t : List Char} (h1 : t.headD ' ' ≠ '+') (h2 : t.headD ' ' ≠ '-') :
    dropSign t = t := by
  cases t with
  | nil => rfl
  | cons c cs =>
    simp only [List.headD_cons] at h1 h2
    unfold dropSign
    split
    · next heq => rw [List.cons.injEq] at heq; exact absurd heq.1 h1
    · next heq => rw [List.cons.injEq] at heq; exact absurd heq.1 h2
    · rfl

lemma rstripC_commas (v : List Char) (m : Nat) :
    rstripC (v ++ List.replicate m ',') = rstripC v := by
  unfold rstripC
  rw [List.reverse_append, List.reverse_replicate,
    List.dropWhile_append_of_pos (by intro a ha; simp [List.eq_of_mem_replicate ha])]

/-! ### Claim C5: parse_value_list refines the spec description -/

/-- C5: `parse_value_list` splits on commas, trims each part, drops the
parts that are empty after trimming, coerces each survivor in order;
zero survivors give the empty list; `coerce_list("1,2,,3,")` is
`[Integer 1, Integer 2, Integer 3]`. -/
theorem parse_value_list_refines_spec :
    (∀ s, parse_value_list s = coerce_list_spec s)
    ∧ parse_value_list ("1,2,,3,".toList) = [.int 1, .int 2, .int 3]
    ∧ parse_value_list (",, ,".toList) = [] := by
  refine ⟨fun s => ?_, by rfl, by rfl⟩
  show (stripParts (rstripC (pyStrip s))).map to_number = (stripParts s).map to_number
  rw [stripParts_rstripC, stripParts_pyStrip]

/-! ### Claim C1: exponent-marker tokens stay strings -/

/-- C1 (amended): a token containing `e` or `E` is never coerced to
Integer or Float: `to_number` returns the RawString equal to the input
after stripping surrounding whitespace and all trailing commas. -/
theorem to_number_sci_preserved (s : List Char) (h : hasExp s = true) :
    to_number s = Scalar.str (rstripC (pyStrip s)) := by
  have h2 := hasExp_norm h
  unfold to_number
  simp [h2]

theorem to_number_sci_preserved_w :
    to_number ("1e9".toList) = Scalar.str (rstripC (pyStrip ("1e9".toList))) :=
  to_number_sci_preserved ("1e9".toList) (by rfl)

/-- C1 counterexample: for the token `1e9,,` the result is the RawString
`1e9`, which is neither the whitespace-trimmed input `1e9,,` nor the
input trimmed of a single trailing comma `1e9,`. -/
theorem to_number_sci_cex :
    to_number ("1e9,,".toList) = Scalar.str ("1e9".toList)
    ∧ Scalar.str ("1e9".toList) ≠ Scalar.str (pyStrip ("1e9,,".toList))
    ∧ Scalar.str ("1e9".toList) ≠ Scalar.str ("1e9,".toList) := by
  refine ⟨by rfl, by decide, by decide⟩

/-! ### Claim C3: trailing-comma stripping before classification -/

lemma digits_char_facts {ds : List Char} (h : ∀ c ∈ ds, isDigit c = true) :
    (∀ c ∈ ds, pySpace c = false) ∧ (∀ c ∈ ds, (c == ',') = false)
    ∧ (∀ c ∈ ds, c ≠ 'e' ∧ c ≠ 'E') := by
  refine ⟨fun c hc => isDigit_not_space (h c hc),
    fun c hc => ?_, fun c hc => ?_⟩
  · exact beq_eq_false_iff_ne.mpr (ne_of_pred_ne (h c hc) (by decide))
  · exact ⟨ne_of_pred_ne (h c hc) (by decide), ne_of_pred_ne (h c hc) (by decide)⟩

lemma matchIntRe_digits {ds : List Char} (h0 : ds ≠ []) (h : ∀ c ∈ ds, isDigit c = true) :
    matchIntRe ds = true := by
  cases ds with
  | nil => exact absurd rfl h0
  | cons c cs =>
    have hc := h c (List.mem_cons_self c cs)
    unfold matchIntRe
    split
    · next heq =>
      rw [List.cons.injEq] at heq
      exact absurd heq.1 (ne_of_pred_ne hc (by decide))
    · next heq =>
      rw [List.cons.injEq] at heq
      exact absurd heq.1 (ne_of_pred_ne hc (by decide))
    · simp
      exact ⟨hc, fun x hx => h x (List.mem_cons_of_mem c hx)⟩

lemma pyIntOpt_digits {ds : List Char} (h0 : ds ≠ []) (h : ∀ c ∈ ds, isDigit c = true) :
    pyIntOpt ds = some (pyInt ds) := by
  have hc := h (ds.headD ' ') (by cases ds with
    | nil => exact absurd rfl h0
    | cons c cs => exact List.mem_cons_self c cs)
  have hd : dropSign ds = ds :=
    dropSign_of_ne (ne_of_pred_ne hc (by decide)) (ne_of_pred_ne hc (by decide))
  have h1 : ds.isEmpty = false := by simpa [List.isEmpty_iff] using h0
  have h2 : ds.all isDigit = true := by simpa [List.all_eq_true] using h
  unfold pyIntOpt
  rw [hd]
  simp [h1, h2]

/-- C3 (amended): `to_number` strips surrounding whitespace and then all
trailing commas before classifying: a digit string followed by any number
of trailing commas is coerced to the Integer `int(d)` — two trailing
commas do not survive as a RawString. -/
theorem to_number_digits_commas (ds : List Char) (k : Nat)
    (h0 : ds ≠ []) (h : ∀ c ∈ ds, isDigit c = true) :
    to_number (ds ++ List.replicate k ',') = Scalar.int (pyInt ds) := by
  obtain ⟨hsp, hcm, hee⟩ := digits_char_facts h
  have hstrip : pyStrip (ds ++ List.replicate k ',') = ds ++ List.replicate k ',' := by
    refine pyStrip_eq_self (fun c hc => ?_)
    rcases List.mem_append.mp hc with h1 | h1
    · exact hsp c h1
    · rw [List.eq_of_mem_replicate h1]; decide
  have hT : rstripC (pyStrip (ds ++ List.replicate k ',')) = ds := by
    rw [hstrip, rstripC_commas, rstripC_eq_self hcm]
  have hexp : hasExp ds = false := hasExp_false_of hee
  unfold to_number
  rw [hT]
  simp [hexp, matchIntRe_digits h0 h, pyIntOpt_digits h0 h]

theorem to_number_digits_commas_w :
    to_number ("7".toList ++ List.replicate 2 ',') = Scalar.int (pyInt ("7".toList)) :=
  to_number_digits_commas ("7".toList) 2 (by decide) (by decide)

/-- C3 counterexample: `to_number("5,,")` yields the Integer 5, not the
RawString `5,` that stripping of only a single trailing comma would
demand. -/
theorem to_number_digits_commas_cex :
    to_number ("5,,".toList) = Scalar.int 5
    ∧ Scalar.int 5 ≠ Scalar.str ("5,".toList) := by
  refine ⟨by rfl, by decide⟩

/-! ### Claims C6 and C7: numeric classification and totality -/

lemma matchIntRe_cons_of_ne {c : Char} {cs : List Char} (h1 : c ≠ '+') (h2 : c ≠ '-') :
    matchIntRe (c :: cs) = (!(c :: cs).isEmpty && (c :: cs).all isDigit) := by
  unfold matchIntRe
  split
  · next heq => rw [List.cons.injEq] at heq; exact absurd heq.1 h1
  · next heq => rw [List.cons.injEq] at heq; exact absurd heq.1 h2
  · rfl

lemma matchIntRe_shape {t : List Char} (h : matchIntRe t = true) :
    (!(dropSign t).isEmpty && (dropSign t).all isDigit) = true := by
  cases t with
  | nil => exact absurd h (by decide)
  | cons c cs =>
    by_cases h1 : c = '+'
    · subst h1; exact h
    · by_cases h2 : c = '-'
      · subst h2; exact h
      · rw [matchIntRe_cons_of_ne h1 h2] at h
        rw [dropSign_of_ne (by simpa using h1) (by simpa using h2)]
        exact h

lemma pyIntOpt_of_shape {t : List Char}
    (h : (!(dropSign t).isEmpty && (dropSign t).all isDigit) = true) :
    pyIntOpt t = some (pyInt t) := by
  rw [Bool.and_eq_true, Bool.not_eq_true'] at h
  unfold pyIntOpt
  simp [h.1, h.2]

lemma pyFloatOpt_of_match {t : List Char} (h : matchFloatRe t = true) :
    pyFloatOpt t = some (pyFloat t) := by
  unfold pyFloatOpt
  rw [show floatBody (dropSign t) = true from h]
  rfl

/-- C7: `to_number` is total — every input yields an Integer, a Float, or
the RawString fallback holding the normalised input, and the two
`ValueError` fallback branches are unreachable: whenever one of the
numeric regexes matches, the corresponding Python conversion succeeds. -/
theorem to_number_total (s : List Char) :
    (to_number s = Scalar.str (rstripC (pyStrip s))
      ∨ (∃ n, to_number s = Scalar.int n) ∨ (∃ q, to_number s = Scalar.float q))
    ∧ (matchIntRe (rstripC (pyStrip s)) = true →
        (pyIntOpt (rstripC (pyStrip s))).isSome = true)
    ∧ (matchFloatRe (rstripC (pyStrip s)) = true →
        (pyFloatOpt (rstripC (pyStrip s))).isSome = true) := by
  refine ⟨?_, fun h => by rw [pyIntOpt_of_shape (matchIntRe_shape h)]; rfl,
    fun h => by rw [pyFloatOpt_of_match h]; rfl⟩
  by_cases h1 : hasExp (rstripC (pyStrip s)) = true
  · left; unfold to_number; simp [h1]
  · by_cases h2 : matchIntRe (rstripC (pyStrip s)) = true
    · right; left
      refine ⟨pyInt (rstripC (pyStrip s)), ?_⟩
      unfold to_number
      simp [h1, h2, pyIntOpt_of_shape (matchIntRe_shape h2)]
    · by_cases h3 : matchFloatRe (rstripC (pyStrip s)) = true
      · right; right
        refine ⟨pyFloat (rstripC (pyStrip s)), ?_⟩
        unfold to_number
        simp [h1, h2, h3, pyFloatOpt_of_match h3]
      · left; unfold to_number; simp [h1, h2, h3]

theorem to_number_total_w :
    matchIntRe (rstripC (pyStrip (" 42,".toList))) = true
    ∧ (pyIntOpt (rstripC (pyStrip (" 42,".toList)))).isSome = true :=
  ⟨by rfl, (to_number_total (" 42,".toList)).2.1 (by rfl)⟩

lemma reIntToken_shape {t : List Char} (h : reIntToken t = true) :
    (∃ ds, t = '-' :: ds ∧ ds ≠ [] ∧ ∀ c ∈ ds, isDigit c = true)
    ∨ (t ≠ [] ∧ ∀ c ∈ t, isDigit c = true) := by
  cases t with
  | nil => exact absurd h (by decide)
  | cons c cs =>
    by_cases hc : c = '-'
    · subst hc
      left
      have h2 : (!cs.isEmpty && cs.all isDigit) = true := h
      rw [Bool.and_eq_true, Bool.not_eq_true'] at h2
      exact ⟨cs, rfl, by simpa [List.isEmpty_iff] using h2.1,
        by simpa [List.all_eq_true] using h2.2⟩
    · right
      have heq : reIntToken (c :: cs) = (!(c :: cs).isEmpty && (c :: cs).all isDigit) := by
        unfold reIntToken
        split
        · next heq2 => rw [List.cons.injEq] at heq2; exact absurd heq2.1 hc
        · rfl
      rw [heq, Bool.and_eq_true, Bool.not_eq_true'] at h
      exact ⟨by simp, by simpa [List.all_eq_true] using h.2⟩

lemma norm_eq_self_of_numeric {t : List Char}
    (h : ∀ c ∈ t, isDigit c = true ∨ c = '-' ∨ c = '.') :
    rstripC (pyStrip t) = t ∧ hasExp t = false := by
  have hs : ∀ c ∈ t, pySpace c = false := by
    intro c hc
    rcases h c hc with h1 | h1 | h1
    · exact isDigit_not_space h1
    · subst h1; decide
    · subst h1; decide
  have hcm : ∀ c ∈ t, (c == ',') = false := by
    intro c hc
    rcases h c hc with h1 | h1 | h1
    · exact beq_eq_false_iff_ne.mpr (ne_of_pred_ne h1 (by decide))
    · subst h1; decide
    · subst h1; decide
  have hee : ∀ c ∈ t, c ≠ 'e' ∧ c ≠ 'E' := by
    intro c hc
    rcases h c hc with h1 | h1 | h1
    · exact ⟨ne_of_pred_ne h1 (by decide), ne_of_pred_ne h1 (by decide)⟩
    · subst h1; exact ⟨by decide, by decide⟩
    · subst h1; exact ⟨by decide, by decide⟩
  rw [pyStrip_eq_self hs, rstripC_eq_self hcm]
  exact ⟨rfl, hasExp_false_of hee⟩

lemma floatTail_shape {u : List Char} (h : floatTail u = true) :
    ∃ b, u.dropWhile isDigit = '.' :: b ∧ b ≠ [] ∧ (∀ c ∈ b, isDigit c = true)
      ∧ (∀ c ∈ u, isDigit c = true ∨ c = '.') := by
  unfold floatTail at h
  split at h
  · next b heq =>
    rw [Bool.and_eq_true, Bool.not_eq_true'] at h
    have hb : ∀ c ∈ b, isDigit c = true := by simpa [List.all_eq_true] using h.2
    refine ⟨b, heq, by simpa [List.isEmpty_iff] using h.1, hb, ?_⟩
    intro c hc
    rw [← List.takeWhile_append_dropWhile isDigit u] at hc
    rcases List.mem_append.mp hc with h1 | h1
    · exact Or.inl (List.mem_takeWhile_imp h1)
    · rw [heq] at h1
      rcases List.mem_cons.mp h1 with h2 | h2
      · exact Or.inr h2
      · exact Or.inl (hb c h2)
  · exact absurd h (by decide)

/-- C6: every token matching `^-?\d+$` is coerced to the Integer
`int(t)`, and every token matching `^-?\d*\.\d+$` (which has no exponent
marker) to the Float `float(t)` — Python floats modelled as the exact
rational value of the decimal literal. -/
theorem to_number_numeric_tokens (t : List Char) :
    (reIntToken t = true → to_number t = Scalar.int (pyInt t))
    ∧ (reFloatToken t = true → to_number t = Scalar.float (pyFloat t)) := by
  constructor
  · intro h
    rcases reIntToken_shape h with ⟨ds, rfl, hne, hds⟩ | ⟨hne, hds⟩
    · have hch : ∀ c ∈ '-' :: ds, isDigit c = true ∨ c = '-' ∨ c = '.' := by
        intro c hc
        rcases List.mem_cons.mp hc with h1 | h1
        · exact Or.inr (Or.inl h1)
        · exact Or.inl (hds c h1)
      obtain ⟨hnorm, hexp⟩ := norm_eq_self_of_numeric hch
      have hmi : matchIntRe ('-' :: ds) = true := by
        show (!ds.isEmpty && ds.all isDigit) = true
        rw [Bool.and_eq_true, Bool.not_eq_true']
        exact ⟨by simpa [List.isEmpty_iff] using hne,
          by simpa [List.all_eq_true] using hds⟩
      unfold to_number
      rw [hnorm]
      simp [hexp, hmi, pyIntOpt_of_shape (matchIntRe_shape hmi)]
    · have h0 := to_number_digits_commas t 0 hne hds
      simpa using h0
  · intro h
    cases t with
    | nil => exact absurd h (by decide)
    | cons c cs =>
      by_cases hc : c = '-'
      · subst hc
        have ht : floatTail cs = true := h
        obtain ⟨b, heq, hbne, hb, hchars⟩ := floatTail_shape ht
        have hch : ∀ x ∈ '-' :: cs, isDigit x = true ∨ x = '-' ∨ x = '.' := by
          intro x hx
          rcases List.mem_cons.mp hx with h1 | h1
          · exact Or.inr (Or.inl h1)
          · rcases hchars x h1 with h2 | h2
            · exact Or.inl h2
            · exact Or.inr (Or.inr h2)
        obtain ⟨hnorm, hexp⟩ := norm_eq_self_of_numeric hch
        have hdot : '.' ∈ cs := by
          have hd2 : '.' ∈ cs.dropWhile isDigit := by
            rw [heq]; exact List.mem_cons_self _ _
          exact (List.dropWhile_sublist isDigit).subset hd2
        have hall : cs.all isDigit = false := by
          by_contra hb2
          rw [Bool.not_eq_false, List.all_eq_true] at hb2
          exact absurd (hb2 '.' hdot) (by decide)
        have hmi : matchIntRe ('-' :: cs) = false := by
          show (!cs.isEmpty && cs.all isDigit) = false
          simp [hall]
        have hbne2 : b.isEmpty = false := by simpa [List.isEmpty_iff] using hbne
        have hball : b.all isDigit = true := by simpa [List.all_eq_true] using hb
        have hmf : matchFloatRe ('-' :: cs) = true := by
          show floatBody cs = true
          unfold floatBody
          rw [heq]
          simp [hbne2, hball]
        unfold to_number
        rw [hnorm]
        simp [hexp, hmi, hmf, pyFloatOpt_of_match hmf]
      · have hrw : reFloatToken (c :: cs) = floatTail (c :: cs) := by
          unfold reFloatToken
          split
          · next heq2 => rw [List.cons.injEq] at heq2; exact absurd heq2.1 hc
          · rfl
        have ht : floatTail (c :: cs) = true := by rw [← hrw]; exact h
        obtain ⟨b, heq, hbne, hb, hchars⟩ := floatTail_shape ht
        have hch : ∀ x ∈ c :: cs, isDigit x = true ∨ x = '-' ∨ x = '.' := by
          intro x hx
          rcases hchars x hx with h2 | h2
          · exact Or.inl h2
          · exact Or.inr (Or.inr h2)
        obtain ⟨hnorm, hexp⟩ := norm_eq_self_of_numeric hch
        have hcp : c ≠ '+' := by
          rcases hchars c (List.mem_cons_self c cs) with h2 | h2
          · exact ne_of_pred_ne h2 (by decide)
          · subst h2; decide
        have hds : dropSign (c :: cs) = c :: cs :=
          dropSign_of_ne (by simpa using hcp) (by simpa using hc)
        have hdot : '.' ∈ c :: cs := by
          have hd2 : '.' ∈ (c :: cs).dropWhile isDigit := by
            rw [heq]; exact List.mem_cons_self _ _
          exact (List.dropWhile_sublist isDigit).subset hd2
        have hall : (c :: cs).all isDigit = false := by
          by_contra hb2
          rw [Bool.not_eq_false, List.all_eq_true] at hb2
          exact absurd (hb2 '.' hdot) (by decide)
        have hmi : matchIntRe (c :: cs) = false := by
          rw [matchIntRe_cons_of_ne hcp hc]
          simp [hall]
        have hbne2 : b.isEmpty = false := by simpa [List.isEmpty_iff] using hbne
        have hball : b.all isDigit = true := by simpa [List.all_eq_true] using hb
        have hmf : matchFloatRe (c :: cs) = true := by
          unfold matchFloatRe
          rw [hds]
          unfold floatBody
          rw [heq]
          simp [hbne2, hball]
        unfold to_number
        rw [hnorm]
        simp [hexp, hmi, hmf, pyFloatOpt_of_match hmf]

theorem to_number_numeric_tokens_w :
    (to_number ("-12".toList) = Scalar.int (pyInt ("-12".toList)))
    ∧ (to_number ("3.5".toList) = Scalar.float (pyFloat ("3.5".toList))) :=
  ⟨(to_number_numeric_tokens ("-12".toList)).1 (by rfl),
   (to_number_numeric_tokens ("3.5".toList)).2 (by rfl)⟩

/-! ### Dictionary lemmas -/

lemma lookup_upsert_self {β : Type} (k : List Char) (v : β) (l : List (List Char × β)) :
    lookupKey k (upsert k v l) = some v := by
  induction l with
  | nil => simp [upsert, lookupKey]
  | cons p r ih =>
    by_cases h : p.1 = k
    · simp [upsert, h, lookupKey]
    · simp [upsert, h, lookupKey, ih]

lemma mem_upsert {β : Type} {k : List Char} {v : β} {l : List (List Char × β)}
    {p : List Char × β} (h : p ∈ upsert k v l) : p = (k, v) ∨ p ∈ l := by
  induction l with
  | nil => simpa [upsert] using h
  | cons q r ih =>
    by_cases hq : q.1 = k
    · rw [show upsert k v (q :: r) = (k, v) :: r by simp [upsert, hq]] at h
      rcases List.mem_cons.mp h with h1 | h1
      · exact Or.inl h1
      · exact Or.inr (List.mem_cons_of_mem q h1)
    · rw [show upsert k v (q :: r) = q :: upsert k v r by simp [upsert, hq]] at h
      rcases List.mem_cons.mp h with h1 | h1
      · exact Or.inr (h1 ▸ List.mem_cons_self q r)
      · rcases ih h1 with h2 | h2
        · exact Or.inl h2
        · exact Or.inr (List.mem_cons_of_mem q h2)

lemma lookup_mem {β : Type} {k : List Char} {v : β} {l : List (List Char × β)}
    (h : lookupKey k l = some v) : (k, v) ∈ l := by
  induction l with
  | nil => simp [lookupKey] at h
  | cons q r ih =>
    obtain ⟨q1, q2⟩ := q
    by_cases hq : q1 = k
    · subst hq
      rw [show lookupKey q1 ((q1, q2) :: r) = some q2 from by simp [lookupKey]] at h
      injection h with h2
      subst h2
      exact List.mem_cons_self _ _
    · rw [show lookupKey k ((q1, q2) :: r) = lookupKey k r from by simp [lookupKey, hq]] at h
      exact List.mem_cons_of_mem _ (ih h)

lemma lookup2_upsertSec_self (sec nm : List Char) (b : Blk) (o : Out) :
    lookup2 (upsertSec sec nm b o) sec nm = some b := by
  induction o with
  | nil => simp [upsertSec, lookup2, lookupKey, lookup_upsert_self]
  | cons p r ih =>
    by_cases h : p.1 = sec
    · simp [upsertSec, h, lookup2, lookupKey, lookup_upsert_self]
    · simp only [upsertSec]
      rw [if_neg h]
      simpa [lookup2, lookupKey, h] using ih

/-! ### Line-classification facts -/

lemma isWordChar_ne_hash {c : Char} (h : isWordChar c = true) : c ≠ '#' :=
  ne_of_pred_ne h (by decide)

lemma headerMatch_line_facts {l : List Char} {p : List Char × List Char}
    (h : headerMatch l = some p) : l.isEmpty = false ∧ l.headD ' ' ≠ '#' := by
  cases l with
  | nil => simp [headerMatch] at h
  | cons c cs =>
    refine ⟨rfl, ?_⟩
    by_cases hw : isWordChar c
    · simpa using isWordChar_ne_hash hw
    · simp [headerMatch, List.takeWhile_cons, hw] at h

lemma propMatch_line_facts {l : List Char} {p : List Char × List Char}
    (h : propMatch l = some p) : l.isEmpty = false ∧ l.headD ' ' ≠ '#' := by
  cases l with
  | nil => simp [propMatch] at h
  | cons c cs =>
    refine ⟨rfl, ?_⟩
    by_cases ha : isAlphaUnd c
    · simpa using ne_of_pred_ne ha (by decide)
    · simp [propMatch, ha] at h

lemma propStep_blank {bd : Blk × Dms} {x : List Char}
    (h : (pyStrip x).isEmpty = true) : propStep bd x = bd := by
  simp only [propStep]
  rw [if_pos h]

lemma propStep_comment {bd : Blk × Dms} {x : List Char}
    (h1 : (pyStrip x).isEmpty = false) (h2 : (pyStrip x).headD ' ' = '#') :
    propStep bd x = bd := by
  simp only [propStep]
  rw [if_neg (by simp [h1]), if_pos h2]

lemma stepLine_nonheader (O : Out) (cur : Option Cur) (x : List Char)
    (hh : headerMatch (pyStrip x) = none) :
    stepLine (O, cur) x = (O, cur.map (fun c => (c.1, c.2.1, propStep c.2.2 x))) := by
  simp only [stepLine]
  by_cases h1 : (pyStrip x).isEmpty
  · rw [if_pos h1]
    cases cur with
    | none => rfl
    | some c =>
      obtain ⟨sec, nm, b, d⟩ := c
      simp [propStep_blank h1]
  · rw [if_neg h1]
    by_cases h2 : (pyStrip x).headD ' ' = '#'
    · rw [if_pos h2]
      cases cur with
      | none => rfl
      | some c =>
        obtain ⟨sec, nm, b, d⟩ := c
        simp [propStep_comment (Bool.not_eq_true _ ▸ h1 : _) h2]
    · rw [if_neg h2, hh]
      cases cur with
      | none => rfl
      | some c => obtain ⟨sec, nm, b, d⟩ := c; rfl

lemma foldl_stepLine_nonheader (l2 : List (List Char)) :
    ∀ (O : Out) (sec nm : List Char) (bd : Blk × Dms),
    (∀ x ∈ l2, headerMatch (pyStrip x) = none) →
    List.foldl stepLine ((O, some (sec, nm, bd)) : PState) l2
      = (O, some (sec, nm, List.foldl propStep bd l2)) := by
  induction l2 with
  | nil => intro O sec nm bd h; simp
  | cons x xs ih =>
    intro O sec nm bd h
    rw [List.foldl_cons, List.foldl_cons,
      stepLine_nonheader O _ x (h x (List.mem_cons_self x xs))]
    simp only [Option.map_some']
    exact ih O sec nm (propStep bd x) (fun y hy => h y (List.mem_cons_of_mem x hy))

/-! ### Claim C2: repeated headers replace the whole block -/

/-- C2 (amended): when a later header line reopens the same
(section, name) pair, the committed block is exactly the block assembled
from the lines after the latest occurrence — whole-block replacement, so
a key set only under the earlier header is dropped, and each key that
does appear holds the value set under the latest header. -/
theorem repeated_header_last_wins (hl sec nm : List Char) (l1 l2 : List (List Char))
    (hh : headerMatch (pyStrip hl) = some (sec, nm))
    (h2 : ∀ x ∈ l2, headerMatch (pyStrip x) = none) :
    lookup2 (parse_old_format (hl :: l1 ++ hl :: l2)) sec nm
      = some (commitBlk (List.foldl propStep (([], []) : Blk × Dms) l2).1
          (List.foldl propStep (([], []) : Blk × Dms) l2).2) := by
  obtain ⟨hne, hhash⟩ := headerMatch_line_facts hh
  simp only [parse_old_format]
  rw [List.foldl_append, List.foldl_cons, List.foldl_cons]
  set st1 := List.foldl stepLine (stepLine (([], none) : PState) hl) l1 with hst1
  have hstep : stepLine st1 hl
      = (flush st1.1 st1.2, some (sec, nm, ([] : Blk), ([] : Dms))) := by
    simp only [stepLine]
    rw [if_neg (by simp [hne]), if_neg hhash, hh]
  rw [hstep,
    foldl_stepLine_nonheader l2 (flush st1.1 st1.2) sec nm (([], []) : Blk × Dms) h2]
  exact lookup2_upsertSec_self sec nm
    (commitBlk (List.foldl propStep (([], []) : Blk × Dms) l2).1
      (List.foldl propStep (([], []) : Blk × Dms) l2).2)
    (flush st1.1 st1.2)

theorem repeated_header_last_wins_w :
    lookup2 (parse_old_format
        ((["sec: A", "x 1", "sec: A", "y 2"].map String.toList))) ("sec".toList) ("A".toList)
      = some (commitBlk
          (List.foldl propStep (([], []) : Blk × Dms) (["y 2"].map String.toList)).1
          (List.foldl propStep (([], []) : Blk × Dms) (["y 2"].map String.toList)).2) :=
  repeated_header_last_wins ("sec: A".toList) ("sec".toList) ("A".toList)
    (["x 1"].map String.toList) (["y 2"].map String.toList) (by rfl)
    (by intro x hx; rw [List.mem_singleton.mp hx]; rfl)

/-- C2 counterexample: with headers `sec: A`, `x 1`, `sec: A`, `y 2`, the
key `x`, set only under the earlier header, is absent from the committed
block — the claim's "still appears in the final committed block" fails. -/
theorem repeated_header_cex :
    parse_old_format (["sec: A", "x 1", "sec: A", "y 2"].map String.toList)
      = [("sec".toList, [("A".toList, [("y".toList, Val.sc (Scalar.int 2))])])]
    ∧ lookupKey ("x".toList)
        ((lookup2 (parse_old_format (["sec: A", "x 1", "sec: A", "y 2"].map String.toList))
          ("sec".toList) ("A".toList)).getD []) = none := by
  exact ⟨by rfl, by rfl⟩

/-! ### Claim C4: dims routing invariant -/

lemma commit_good {b : Blk} {d : Dms} (hb : ∀ p ∈ b, liveBlkEntry p) (hd : DmsInv d) :
    ∀ p ∈ commitBlk b d, goodBlkEntry p := by
  intro p hp
  unfold commitBlk at hp
  by_cases h : d = []
  · rw [if_pos h] at hp
    obtain ⟨h1, h2, h3⟩ := hb p hp
    exact ⟨h1, h2, fun d2 hd2 => absurd hd2 (h3 d2)⟩
  · rw [if_neg h] at hp
    rcases mem_upsert hp with h1 | h1
    · subst h1
      refine ⟨show ("dims".toList : List Char) ≠ "size".toList from by decide,
        show ("dims".toList : List Char) ≠ "enc".toList from by decide, ?_⟩
      intro d2 hd2
      have hd3 : Val.dict d = Val.dict d2 := hd2
      rw [Val.dict.injEq] at hd3
      subst hd3
      exact ⟨rfl, h, hd⟩
    · obtain ⟨h2, h3, h4⟩ := hb p h1
      exact ⟨h2, h3, fun d2 hd2 => absurd hd2 (h4 d2)⟩

lemma upsertSec_inv {P : Blk → Prop} {o : Out} (ho : ∀ se ∈ o, ∀ nb ∈ se.2, P nb.2)
    {b : Blk} (hb : P b) (sec nm : List Char) :
    ∀ se ∈ upsertSec sec nm b o, ∀ nb ∈ se.2, P nb.2 := by
  induction o with
  | nil =>
    intro se hse nb hnb
    simp [upsertSec] at hse
    subst hse
    simp at hnb
    subst hnb
    exact hb
  | cons q r ih =>
    obtain ⟨q1, q2⟩ := q
    intro se hse nb hnb
    by_cases hq : q1 = sec
    · rw [show upsertSec sec nm b ((q1, q2) :: r) = (q1, upsert nm b q2) :: r
          from by simp [upsertSec, hq]] at hse
      rcases List.mem_cons.mp hse with h1 | h1
      · subst h1
        rcases mem_upsert hnb with h2 | h2
        · subst h2; exact hb
        · exact ho (q1, q2) (List.mem_cons_self _ r) nb h2
      · exact ho _ (List.mem_cons_of_mem _ h1) nb hnb
    · rw [show upsertSec sec nm b ((q1, q2) :: r) = (q1, q2) :: upsertSec sec nm b r
          from by simp [upsertSec, hq]] at hse
      rcases List.mem_cons.mp hse with h1 | h1
      · subst h1; exact ho (q1, q2) (List.mem_cons_self _ r) nb hnb
      · exact ih (fun se2 hse2 => ho se2 (List.mem_cons_of_mem _ hse2)) se h1 nb hnb

lemma flush_inv {o : Out} {oc : Option Cur} (ho : OutInv o) (hc : CurInv oc) :
    OutInv (flush o oc) := by
  cases oc with
  | none => exact ho
  | some c =>
    obtain ⟨sec, nm, b, d⟩ := c
    obtain ⟨hb, hd⟩ := hc
    exact upsertSec_inv (P := fun blk => ∀ p ∈ blk, goodBlkEntry p) ho
      (commit_good hb hd) sec nm

lemma propStep_shape (bd : Blk × Dms) (raw : List Char) :
    propStep bd raw = bd
    ∨ (∃ key v, key ∈ LIST_KEYS_IN_DIMS ∧ propStep bd raw = (bd.1, upsert key v bd.2))
    ∨ (∃ key v, key ∉ LIST_KEYS_IN_DIMS ∧ (∀ d2, v ≠ Val.dict d2)
        ∧ propStep bd raw = (upsert key v bd.1, bd.2)) := by
  simp only [propStep]
  by_cases h1 : (pyStrip raw).isEmpty = true
  · rw [if_pos h1]; left; rfl
  · rw [if_neg h1]
    by_cases h2 : (pyStrip raw).headD ' ' = '#'
    · rw [if_pos h2]; left; rfl
    · rw [if_neg h2]
      split
      · left; rfl
      · next key g2 heq =>
        by_cases h3 : key ∈ LIST_KEYS_IN_DIMS
        · rw [if_pos h3]
          exact Or.inr (Or.inl ⟨key, _, h3, rfl⟩)
        · rw [if_neg h3]
          by_cases h4 : key ∈ TOPLEVEL_LIST_KEYS
          · rw [if_pos h4]
            exact Or.inr (Or.inr ⟨key, _, h3, fun d2 => by simp, rfl⟩)
          · rw [if_neg h4]
            by_cases h5 : hasComma (pyStrip g2) = true
            · rw [if_pos h5]
              exact Or.inr (Or.inr ⟨key, _, h3, fun d2 => by simp, rfl⟩)
            · rw [if_neg h5]
              exact Or.inr (Or.inr ⟨key, _, h3, fun d2 => by simp, rfl⟩)

lemma propStep_inv {bd : Blk × Dms} (hb : ∀ p ∈ bd.1, liveBlkEntry p) (hd : DmsInv bd.2)
    (raw : List Char) :
    (∀ p ∈ (propStep bd raw).1, liveBlkEntry p) ∧ DmsInv (propStep bd raw).2 := by
  rcases propStep_shape bd raw with h | ⟨key, v, hk, h⟩ | ⟨key, v, hk, hv, h⟩
  · rw [h]; exact ⟨hb, hd⟩
  · rw [h]
    refine ⟨hb, fun q hq => ?_⟩
    rcases mem_upsert hq with h1 | h1
    · subst h1
      simpa [LIST_KEYS_IN_DIMS] using hk
    · exact hd q h1
  · rw [h]
    refine ⟨fun q hq => ?_, hd⟩
    rcases mem_upsert hq with h1 | h1
    · subst h1
      have hk2 : ¬ (key = "size".toList ∨ key = "enc".toList) := by
        simpa [LIST_KEYS_IN_DIMS] using hk
      push_neg at hk2
      exact ⟨hk2.1, hk2.2, hv⟩
    · exact hb q h1

lemma stepLine_inv {st : PState} (h : StInv st) (raw : List Char) :
    StInv (stepLine st raw) := by
  obtain ⟨O, cur⟩ := st
  obtain ⟨ho, hc⟩ := h
  simp only [stepLine]
  by_cases h1 : (pyStrip raw).isEmpty = true
  · rw [if_pos h1]; exact ⟨ho, hc⟩
  · rw [if_neg h1]
    by_cases h2 : (pyStrip raw).headD ' ' = '#'
    · rw [if_pos h2]; exact ⟨ho, hc⟩
    · rw [if_neg h2]
      split
      · next sec nm heq =>
        refine ⟨flush_inv ho hc, ?_, ?_⟩
        · exact fun p hp => absurd hp (List.not_mem_nil p)
        · exact fun q hq => absurd hq (List.not_mem_nil q)
      · next heq =>
        cases cur with
        | none => exact ⟨ho, hc⟩
        | some c =>
          obtain ⟨sec, nm, b, d⟩ := c
          obtain ⟨hb, hd⟩ := hc
          exact ⟨ho, @propStep_inv (b, d) hb hd raw⟩

lemma foldl_stepLine_inv (ls : List (List Char)) :
    ∀ st : PState, StInv st → StInv (List.foldl stepLine st ls) := by
  induction ls with
  | nil => intro st h; exact h
  | cons x xs ih => intro st h; exact ih _ (stepLine_inv h x)

lemma parse_old_format_inv (ls : List (List Char)) : OutInv (parse_old_format ls) := by
  have h := foldl_stepLine_inv ls (([], none) : PState)
    ⟨fun se hse => absurd hse (List.not_mem_nil se), trivial⟩
  exact flush_inv h.1 h.2

/-- C4: size/enc properties are routed into the open block's dims
sub-mapping and never appear among a committed block's top-level
properties, and a committed dims sub-mapping is always nonempty and holds
only dims keys. -/
theorem dims_routing_invariant :
    (∀ ls sec nm b, lookup2 (parse_old_format ls) sec nm = some b →
      lookupKey ("size".toList) b = none ∧ lookupKey ("enc".toList) b = none ∧
      ∀ d, lookupKey ("dims".toList) b = some (Val.dict d) →
        d ≠ [] ∧ ∀ q ∈ d, q.1 = "size".toList ∨ q.1 = "enc".toList)
    ∧ (∀ (bd : Blk × Dms) raw key g2, propMatch (pyStrip raw) = some (key, g2) →
        key ∈ LIST_KEYS_IN_DIMS →
        propStep bd raw = (bd.1, upsert key (parse_value_list (pyStrip g2)) bd.2)) := by
  constructor
  · intro ls sec nm b hb
    have hinv := parse_old_format_inv ls
    unfold lookup2 at hb
    rcases ho : lookupKey sec (parse_old_format ls) with _ | inner
    · rw [ho] at hb; simp at hb
    · rw [ho] at hb
      have hb2 : lookupKey nm inner = some b := hb
      have hgood : ∀ p ∈ b, goodBlkEntry p := hinv _ (lookup_mem ho) _ (lookup_mem hb2)
      refine ⟨?_, ?_, ?_⟩
      · rcases hs : lookupKey ("size".toList) b with _ | v
        · rfl
        · exact absurd rfl (hgood _ (lookup_mem hs)).1
      · rcases hs : lookupKey ("enc".toList) b with _ | v
        · rfl
        · exact absurd rfl (hgood _ (lookup_mem hs)).2.1
      · intro d hdl
        have hq := (hgood _ (lookup_mem hdl)).2.2 d rfl
        exact ⟨hq.2.1, hq.2.2⟩
  · intro bd raw key g2 hm hk
    obtain ⟨h1, h2⟩ := propMatch_line_facts hm
    simp only [propStep]
    rw [if_neg (by simp [h1]), if_neg h2, hm]
    exact if_pos hk

theorem dims_routing_invariant_w :
    lookupKey ("size".toList)
      [(("dims".toList : List Char), Val.dict [("size".toList, [Scalar.int 1])])] = none
    ∧ lookupKey ("enc".toList)
      [(("dims".toList : List Char), Val.dict [("size".toList, [Scalar.int 1])])] = none :=
  ⟨(dims_routing_invariant.1 (["a: b", "size 1"].map String.toList)
      ("a".toList) ("b".toList) _ (by rfl)).1,
   (dims_routing_invariant.1 (["a: b", "size 1"].map String.toList)
      ("a".toList) ("b".toList) _ (by rfl)).2.1⟩

/-! ### Claim C9: explicit `dims` property vs the dims sub-mapping -/

/-- C9: if at least one size/enc key was seen, the flush overwrites any
explicit `dims` property with the dims sub-mapping (the explicit value is
lost); with no size/enc key the block is committed unchanged, so an
explicit `dims` property occupies the dims slot.  The two parses exercise
both situations end to end. -/
theorem explicit_dims_property_collision :
    (∀ (b : Blk) (d : Dms), d ≠ [] →
        lookupKey ("dims".toList) (commitBlk b d) = some (Val.dict d))
    ∧ (∀ b : Blk, commitBlk b ([] : Dms) = b)
    ∧ parse_old_format (["mem: A", "dims 5", "size 1"].map String.toList)
        = [("mem".toList, [("A".toList,
            [("dims".toList, Val.dict [("size".toList, [Scalar.int 1])])])])]
    ∧ parse_old_format (["mem: A", "dims 5"].map String.toList)
        = [("mem".toList, [("A".toList, [("dims".toList, Val.sc (Scalar.int 5))])])] := by
  refine ⟨fun b d hd => ?_, fun b => by simp [commitBlk], by rfl, by rfl⟩
  unfold commitBlk
  rw [if_neg hd]
  exact lookup_upsert_self _ _ _

theorem explicit_dims_property_collision_w :
    lookupKey ("dims".toList)
      (commitBlk [(("dims".toList : List Char), Val.sc (Scalar.int 5))]
        [("size".toList, [Scalar.int 1])])
      = some (Val.dict [("size".toList, [Scalar.int 1])]) :=
  explicit_dims_property_collision.1 _ _ (by simp)

/-! ### Claim C10: comma-free values become one-element lists -/

lemma mem_of_mem_pyStrip {c : Char} {l : List Char} (h : c ∈ pyStrip l) : c ∈ l := by
  have h1 : c ∈ (ltrimL l).reverse.dropWhile pySpace := List.mem_reverse.mp h
  have h2 : c ∈ (ltrimL l).reverse := (List.dropWhile_sublist pySpace).subset h1
  have h3 : c ∈ ltrimL l := List.mem_reverse.mp h2
  exact (List.dropWhile_sublist pySpace).subset h3

lemma to_number_pyStrip (s : List Char) : to_number (pyStrip s) = to_number s := by
  simp only [to_number, pyStrip_idem]

/-- C10: for a list-routed property whose raw value text contains no
comma, the stored value is the one-element list holding the whole
remaining text coerced as a single token: `size 128 128` stores the
single RawString `128 128` inside dims, not a two-element numeric list. -/
theorem comma_free_value_single_list :
    (∀ rest : List Char, hasComma rest = false → pyStrip rest ≠ [] →
        parse_value_list rest = [to_number rest])
    ∧ lookup2 (parse_old_format (["switch: A", "size 128 128"].map String.toList))
        ("switch".toList) ("A".toList)
      = some [("dims".toList, Val.dict [("size".toList, [Scalar.str ("128 128".toList)])])] := by
  refine ⟨fun rest h1 h2 => ?_, by rfl⟩
  have hnc : ∀ c ∈ rest, (c == ',') = false := by
    simp only [hasComma, List.any_eq_false] at h1
    intro c hc
    simpa using h1 c hc
  have hncs : ∀ c ∈ pyStrip rest, (c == ',') = false :=
    fun c hc => hnc c (mem_of_mem_pyStrip hc)
  have hr : rstripC (pyStrip rest) = pyStrip rest := rstripC_eq_self hncs
  show (((splitC (rstripC (pyStrip rest))).map pyStrip).filter
      (fun p => !p.isEmpty)).map to_number = _
  rw [hr, splitC_no_comma _ hncs]
  have h3 : (pyStrip (pyStrip rest)).isEmpty = false := by
    rw [pyStrip_idem]
    simpa [List.isEmpty_iff] using h2
  have h4 : (pyStrip rest).isEmpty = false := by
    simpa [List.isEmpty_iff] using h2
  simp [pyStrip_idem, h3, h4, List.filter_cons, to_number_pyStrip]

theorem comma_free_value_single_list_w :
    parse_value_list ("128 128".toList) = [to_number ("128 128".toList)] :=
  comma_free_value_single_list.1 ("128 128".toList) (by rfl) (by decide)

/-! ### Claim C8: flow lists render on a single line -/

lemma mem_natCharsF : ∀ (f n : Nat) (c : Char), c ∈ natCharsF f n →
    ∃ k, k < 10 ∧ c = digitChar k := by
  intro f
  induction f with
  | zero => intro n c h; simp [natCharsF] at h
  | succ f ih =>
    intro n c h
    rw [natCharsF] at h
    by_cases hn : n < 10
    · rw [if_pos hn] at h
      rw [List.mem_singleton] at h
      exact ⟨n, hn, h⟩
    · rw [if_neg hn] at h
      rcases List.mem_append.mp h with h1 | h1
      · exact ih _ c h1
      · rw [List.mem_singleton] at h1
        exact ⟨n % 10, Nat.mod_lt _ (by omega), h1⟩

lemma newline_not_in_natChars (n : Nat) : '\n' ∈ natChars n → False := by
  intro h
  obtain ⟨k, hk, he⟩ := mem_natCharsF (n + 1) n '\n' h
  have hne : ('\n' : Char) ≠ digitChar k := by interval_cases k <;> decide
  exact hne he

lemma newline_not_in_renderScalar {v : Scalar}
    (hv : ∀ s, v = Scalar.str s → ('\n' ∈ s → False)) :
    '\n' ∈ renderScalar v → False := by
  cases v with
  | int n =>
    intro h
    unfold renderScalar at h
    rcases List.mem_append.mp h with h1 | h1
    · by_cases hn : n < 0
      · rw [if_pos hn] at h1; simp at h1
      · rw [if_neg hn] at h1; simp at h1
    · exact newline_not_in_natChars _ h1
  | float q =>
    intro h
    unfold renderScalar at h
    rcases List.mem_append.mp h with h1 | h1
    · rcases List.mem_append.mp h1 with h2 | h2
      · by_cases hn : q < 0
        · rw [if_pos hn] at h2; simp at h2
        · rw [if_neg hn] at h2; simp at h2
      · exact newline_not_in_natChars _ h2
    · rcases List.mem_cons.mp h1 with h2 | h2
      · exact absurd h2 (by decide)
      · exact newline_not_in_natChars _ h2
  | str s => exact hv s rfl

lemma mem_joinComma {c : Char} : ∀ {parts : List (List Char)}, c ∈ joinComma parts →
    c = ',' ∨ c = ' ' ∨ ∃ p ∈ parts, c ∈ p := by
  intro parts
  induction parts with
  | nil => intro h; simp [joinComma] at h
  | cons x r ih =>
    intro h
    cases r with
    | nil =>
      exact Or.inr (Or.inr ⟨x, List.mem_cons_self _ _, by simpa [joinComma] using h⟩)
    | cons y r2 =>
      rw [show joinComma (x :: y :: r2) = x ++ ',' :: ' ' :: joinComma (y :: r2) from rfl] at h
      rcases List.mem_append.mp h with h1 | h1
      · exact Or.inr (Or.inr ⟨x, List.mem_cons_self _ _, h1⟩)
      · rcases List.mem_cons.mp h1 with h2 | h2
        · exact Or.inl h2
        · rcases List.mem_cons.mp h2 with h3 | h3
          · exact Or.inr (Or.inl h3)
          · rcases ih h3 with h4 | h4 | ⟨p, hp, hcp⟩
            · exact Or.inl h4
            · exact Or.inr (Or.inl h4)
            · exact Or.inr (Or.inr ⟨p, List.mem_cons_of_mem _ hp, hcp⟩)

/-- C8: in the spec-modelled serializer, every `FlowList`-valued property
is emitted as exactly one output line `key: [e1, e2, ...]`; the flow
rendering never contains a newline (its string scalars permitting); and
the full serialization of a parsed document renders the list property
compactly on one line. -/
theorem flow_values_single_line :
    (∀ (ind k : List Char) (l : List Scalar),
        serializeEntry ind (k, Val.flow l) = [ind ++ k ++ ':' :: ' ' :: renderFlow l])
    ∧ (∀ l : List Scalar, (∀ s, Scalar.str s ∈ l → ('\n' ∈ s → False)) →
        ('\n' ∈ renderFlow l → False))
    ∧ serialize (parse_old_format (["a: b", "voltage 1, 2"].map String.toList))
        = ["a:", "  b:", "    voltage: [1, 2]"].map String.toList := by
  refine ⟨fun ind k l => rfl, fun l hl h => ?_, by rfl⟩
  unfold renderFlow at h
  rcases List.mem_cons.mp h with h1 | h1
  · exact absurd h1 (by decide)
  · rcases List.mem_append.mp h1 with h2 | h2
    · rcases mem_joinComma h2 with h3 | h3 | ⟨p, hp, hcp⟩
      · exact absurd h3 (by decide)
      · exact absurd h3 (by decide)
      · obtain ⟨v, hv, rfl⟩ := List.mem_map.mp hp
        exact newline_not_in_renderScalar (fun s hs => hl s (hs ▸ hv)) hcp
    · exact absurd (List.mem_singleton.mp h2) (by decide)

theorem flow_values_single_line_w : ¬ ('\n' ∈ renderFlow [Scalar.int 7]) :=
  flow_values_single_line.2.1 [Scalar.int 7]
    (fun _ hs => absurd (List.mem_singleton.mp hs) (fun he => Scalar.noConfusion he))
